import Mathlib

/-!
Shallow embedding of `arkcoin/key.go` (package `arkcoin` of reConNico/ark-go):
key-pair construction and import/export (WIF), address derivation and the
checksummed base58 encoding scheme.

Bytes are modelled as `Nat` (well-formed values are `< 256`).  The secp256k1
curve is an external capability in the source (`btcec`); the cyclic group
generated by the base point has prime order `secpN`, so a point of that group
is modelled faithfully by its discrete logarithm modulo `secpN`
(`k·G ↦ k % secpN`).  The digest primitives (sha256, ripemd160) and the two
point serializers are opaque in the source and are passed as explicit function
parameters.  Go slice operations that can panic are modelled by explicit
error results (`GoErr.panic`).
-/

namespace ArkGo

/-- A byte, as in Go's `byte`; well-formed values are `< 256`. -/
abbrev Byte := Nat

/-! ### Base conversion helpers (big-endian byte/digit strings) -/

/-- Little-endian digits of `n` in base `b`, with explicit fuel for structural
termination; `natDigitsLE` supplies fuel `n`, which is always enough. -/
def natDigitsLEAux (b : Nat) : Nat → Nat → List Nat
  | _, 0 => []
  | n, fuel + 1 => if n = 0 then [] else n % b :: natDigitsLEAux b (n / b) fuel

/-- Little-endian digits of `n` in base `b` (agrees with `Nat.digits` for `2 ≤ b`). -/
def natDigitsLE (b n : Nat) : List Nat := natDigitsLEAux b n n

/-- The natural number denoted by a big-endian byte string
(Go: `new(big.Int).SetBytes(pb)`). -/
def bytesToNat (l : List Byte) : Nat := Nat.ofDigits 256 l.reverse

/-- Minimal big-endian byte string of `n` (Go: `big.Int.Bytes()`; empty for `0`). -/
def natToBytesBE (n : Nat) : List Byte := (natDigitsLE 256 n).reverse

/-- Minimal big-endian base-58 digit string of `n` (empty for `0`). -/
def natToB58BE (n : Nat) : List Nat := (natDigitsLE 58 n).reverse

/-- Number of leading occurrences of `x` in `l`. -/
def countLeading (x : Nat) (l : List Nat) : Nat :=
  (l.takeWhile (fun a => a == x)).length

/-! ### The base58 codec

The codec lives in this repository (`arkcoin/base58`) but outside the file
under verification.  Modelled from the spec: an opaque reversible
byte-string/string function using the standard base58 alphabet, with each
leading `0x00` byte mapping to one leading `'1'` character, and decoding
failing on a character outside the alphabet. -/

/-- The standard base58 alphabet. -/
def b58Alphabet : List Char :=
  "123456789ABCDEFGHJKLMNPQRSTUVWXYZabcdefghijkmnopqrstuvwxyz".toList

/-- The character for digit value `d` (`d < 58` at every use site). -/
def b58Char (d : Nat) : Char := b58Alphabet.getD d '1'

/-- The digit value of a character, `none` if it is outside the alphabet. -/
def b58Index (c : Char) : Option Nat := b58Alphabet.findIdx? (fun a => a == c)

/-- Errors of the embedded operations.  `invalidBase58` is the codec's
decoding failure; `wifInvalid` is `errors.New("wif is invalid")`;
`panic` marks a Go runtime panic (out-of-bounds slice access). -/
inductive GoErr where
  | invalidBase58 : GoErr
  | wifInvalid : GoErr
  | panic : GoErr
deriving DecidableEq, Repr

/-- Modelled from the spec: `base58.Encode` — leading zero bytes become
leading `'1'` characters, the remainder is the big-endian base-58
representation of the value of the byte string. -/
def base58Encode (b : List Byte) : String :=
  String.mk ((List.replicate (countLeading 0 b) 0 ++
    natToB58BE (bytesToNat b)).map b58Char)

/-- Modelled from the spec: `base58.Decode` — fails on a character outside
the alphabet, otherwise inverts `base58Encode`. -/
def base58Decode (s : String) : Except GoErr (List Byte) :=
  match s.toList.mapM b58Index with
  | none => .error .invalidBase58
  | some ds =>
      .ok (List.replicate (countLeading 0 ds) 0 ++
            natToBytesBE (Nat.ofDigits 58 ds.reverse))

/-! ### The curve capability (btcec) -/

/-- The order of the secp256k1 group (`btcec.S256().N`). -/
def secpN : Nat :=
  0xFFFFFFFFFFFFFFFFFFFFFFFFFFFFFFFEBAAEDCE6AF48A03BBFD25E8CD0364141

/-- A point of the cyclic group generated by the secp256k1 base point,
represented by its discrete logarithm (an element of `ZMod secpN`, carried
as a `Nat` below `secpN`). -/
structure Point where
  log : Nat
deriving DecidableEq, Repr

/-- `k ↦ k·G`: scalar multiplication of the base point, in the discrete-log
representation. -/
def scalarBaseMult (d : Nat) : Point := ⟨d % secpN⟩

/-- `btcec.PrivKeyBytesLen`. -/
def PrivKeyBytesLen : Nat := 32

/-- `btcec.PrivKeyFromBytes`: interprets the bytes as the scalar (no
validation, no reduction of the stored scalar) and derives the public
point. -/
def PrivKeyFromBytes (pb : List Byte) : Nat × Point :=
  (bytesToNat pb, scalarBaseMult (bytesToNat pb))

/-- `paddedAppend` of btcec's serialization: left-pad with zero bytes up to
`size` (no truncation when the source is longer). -/
def paddedAppend (size : Nat) (src : List Byte) : List Byte :=
  List.replicate (size - src.length) 0 ++ src

/-! ### Data model (`key.go`) -/

/-- `Params is parameters of the coin.` -/
structure Params where
  DumpedPrivateKeyHeader : List Byte
  AddressHeader : Byte
  P2SHHeader : Byte
  HDPrivateKeyID : List Byte
  HDPublicKeyID : List Byte
deriving DecidableEq, Repr

/-- `PublicKey represents public key for bitcoin`. -/
structure PublicKey where
  point : Point
  isCompressed : Bool
  param : Params
deriving DecidableEq, Repr

/-- `PrivateKey represents private key for bitcoin`; `D` is the embedded
`btcec.PrivateKey`'s scalar. -/
structure PrivateKey where
  D : Nat
  PublicKey : PublicKey
deriving DecidableEq, Repr

/-! ### Go slice primitives used by the encode sites -/

/-- `copy(p[1:], p[:len(p)-1])` with Go's overlap-safe (memmove) semantics:
every position `1 ≤ i` receives the old value of position `i - 1`. -/
def copyShift (p : List Byte) : List Byte :=
  match p with
  | [] => []
  | a :: _ => a :: p.take (p.length - 1)

/-- `p[0] = b`; every call site below passes a non-empty `p` (a `0x00` byte
was just appended), so the empty case is unreachable there. -/
def setHead (p : List Byte) (b : Byte) : List Byte :=
  match p with
  | [] => []
  | _ :: t => b :: t

/-! ### Key construction and import (`key.go`) -/

/-- The header loop of `FromWIF`:
`for _, h := range param.DumpedPrivateKeyHeader { if pb[0] == h { ok = true } }`.
`pb[0]` is evaluated on each iteration, so the loop panics exactly when there
is at least one iteration and `pb` is empty. -/
def headerLoopOK (headers pb : List Byte) : Except GoErr Bool :=
  match headers, pb with
  | [], _ => .ok false
  | _ :: _, [] => .error .panic
  | hs, b :: _ => .ok (hs.any (fun h => b == h))

/-- Body of `FromWIF` after the base58 decode: the header-membership loop,
then the compression branch
(`len(pb) == btcec.PrivKeyBytesLen+2 && pb[btcec.PrivKeyBytesLen+1] == 0x01`,
which strips the trailing flag byte), then
`btcec.PrivKeyFromBytes(secp256k1, pb[1:])`. -/
def fromWIFDecoded (pb0 : List Byte) (param : Params) : Except GoErr PrivateKey :=
  match headerLoopOK param.DumpedPrivateKeyHeader pb0 with
  | .error e => .error e
  | .ok ok =>
    if ok then
      let pr :=
        if pb0.length = PrivKeyBytesLen + 2 ∧ pb0.getD (PrivKeyBytesLen + 1) 0 = 0x01
        then (pb0.take (pb0.length - 1), true)
        else (pb0, false)
      let dp := PrivKeyFromBytes (pr.1.drop 1)
      .ok { D := dp.1
            PublicKey := { point := dp.2, isCompressed := pr.2, param := param } }
    else .error .wifInvalid

/-- `FromWIF gets PublicKey and PrivateKey from private key of WIF format.` -/
def FromWIF (wif : String) (param : Params) : Except GoErr PrivateKey :=
  match base58Decode wif with
  | .error e => .error e
  | .ok pb0 => fromWIFDecoded pb0 param

/-- `NewPrivateKey creates and returns PrivateKey from bytes.` -/
def NewPrivateKey (pb : List Byte) (param : Params) : PrivateKey :=
  let dp := PrivKeyFromBytes pb
  { D := dp.1
    PublicKey := { point := dp.2, isCompressed := true, param := param } }

/-- UTF-8 bytes of a string (Go: `[]byte(password)`). -/
def utf8Bytes (s : String) : List Byte := s.toUTF8.toList.map (fun b => b.toNat)

/-- `NewPrivateKeyFromPassword creates and returns PrivateKey from string.`
The sha256 digest is an opaque external function, passed as a parameter. -/
def NewPrivateKeyFromPassword (sha256 : List Byte → List Byte)
    (password : String) (param : Params) : PrivateKey :=
  NewPrivateKey (sha256 (utf8Bytes password)) param

/-- `Generate generates random PublicKey and PrivateKey.`  The entropy draw
of `btcec.NewPrivateKey` is modelled by passing the drawn scalar as an
argument (the success path builds the pair from it). -/
def Generate (randScalar : Nat) (param : Params) : PrivateKey :=
  { D := randScalar
    PublicKey := { point := scalarBaseMult randScalar, isCompressed := true
                   param := param } }

/-! ### Export and addresses (`key.go`) -/

/-- `btcec.PrivateKey.Serialize`: 32-byte zero-padded big-endian scalar. -/
def PrivateKey.Serialize (k : PrivateKey) : List Byte :=
  paddedAppend PrivKeyBytesLen (natToBytesBE k.D)

/-- `WIFAddress returns WIF format string from PrivateKey`.
`DumpedPrivateKeyHeader[0]` panics when the list is empty (`none`). -/
def WIFAddress (k : PrivateKey) : Option String :=
  match k.PublicKey.param.DumpedPrivateKeyHeader with
  | [] => none
  | h0 :: _ =>
    let p := k.Serialize
    let p := if k.PublicKey.isCompressed then p ++ [0x01] else p
    let p := p ++ [0x00]
    let p := copyShift p
    let p := setHead p h0
    some (base58Encode p)

/-- `Serialize serializes public key depending on isCompressed.`  The two
btcec point serializers are opaque external functions. -/
def PublicKey.Serialize (serC serU : Point → List Byte) (pub : PublicKey) :
    List Byte :=
  if pub.isCompressed then serC pub.point else serU pub.point

/-- `AddressBytes returns bitcoin address bytes from PublicKey`: the
ripemd160 digest of the serialized key (the sha256 pass of the conventional
pipeline is commented out in the source). -/
def PublicKey.AddressBytes (ripemd160 : List Byte → List Byte)
    (serC serU : Point → List Byte) (pub : PublicKey) : List Byte :=
  ripemd160 (pub.Serialize serC serU)

/-- `Address returns bitcoin address from PublicKey`. -/
def PublicKey.Address (ripemd160 : List Byte → List Byte)
    (serC serU : Point → List Byte) (pub : PublicKey) : String :=
  let rb := pub.AddressBytes ripemd160 serC serU
  let rb := rb ++ [0x00]
  let rb := copyShift rb
  let rb := setHead rb pub.param.AddressHeader
  base58Encode rb

/-- `DecodeAddress converts bitcoin address to hex form.`  `pb[1:]` panics
when the decoded slice is empty; otherwise the first byte is stripped with
no length validation. -/
def DecodeAddress (addr : String) : Except GoErr (List Byte) :=
  match base58Decode addr with
  | .error e => .error e
  | .ok [] => .error .panic
  | .ok (_ :: rest) => .ok rest

/-- Top-level `AddressBytes(redeem)`: ripemd160 of the redeem script (the
sha256 pass is commented out in the source). -/
def AddressBytes (ripemd160 : List Byte → List Byte) (redeem : List Byte) :
    List Byte :=
  ripemd160 redeem

/-- Top-level `Address(redeem, header)`: script-hash-style address. -/
def Address (ripemd160 : List Byte → List Byte) (redeem : List Byte)
    (header : Byte) : String :=
  let rb := AddressBytes ripemd160 redeem
  let rb := rb ++ [0x00]
  let rb := copyShift rb
  let rb := setHead rb header
  base58Encode rb

/-- Follows the spec's words (§4.4): the conventional double-hash pipeline
(256-bit digest, then 160-bit digest), for comparison with the code's
single-hash address derivation. -/
def specConventionalHash160 (sha256 ripemd160 : List Byte → List Byte)
    (data : List Byte) : List Byte :=
  ripemd160 (sha256 data)

/-! ### Concrete values used in concrete instantiations -/

/-- A concrete parameter value (nonempty private-key header list). -/
def exampleParams : Params :=
  { DumpedPrivateKeyHeader := [0xaa], AddressHeader := 0x17, P2SHHeader := 0x05
    HDPrivateKeyID := [], HDPublicKeyID := [] }

/-- A parameter value whose private-key header list does not contain `0x01`. -/
def exampleParamsB : Params :=
  { DumpedPrivateKeyHeader := [0xbb], AddressHeader := 0x17, P2SHHeader := 0x05
    HDPrivateKeyID := [], HDPublicKeyID := [] }

/-- A concrete private key (scalar 1, compressed). -/
def exampleKey : PrivateKey :=
  { D := 1
    PublicKey := { point := ⟨1⟩, isCompressed := true, param := exampleParams } }

/-- A concrete private key (scalar 1, uncompressed). -/
def exampleKeyU : PrivateKey :=
  { D := 1
    PublicKey := { point := ⟨1⟩, isCompressed := false, param := exampleParams } }

/-- The private key produced by importing the WIF string `"DwS"`
(which base58-decodes to `[0xaa, 0x05]`) under `exampleParams`. -/
def exampleKeyDwS : PrivateKey :=
  { D := 5
    PublicKey := { point := ⟨5⟩, isCompressed := false, param := exampleParams } }

/-! ## Helper lemmas: base conversion -/

theorem natDigitsLEAux_eq_digits (b : Nat) (hb : 2 ≤ b) (fuel : Nat) :
    ∀ n, n ≤ fuel → natDigitsLEAux b n fuel = Nat.digits b n := by
  induction fuel with
  | zero =>
    intro n hn
    have h0 : n = 0 := Nat.le_zero.mp hn
    subst h0
    simp [natDigitsLEAux]
  | succ fuel ih =>
    intro n hn
    by_cases h0 : n = 0
    · subst h0; simp [natDigitsLEAux]
    · have hpos : 0 < n := Nat.pos_of_ne_zero h0
      have hdiv : n / b < n := Nat.div_lt_self hpos (by omega)
      have hstep : natDigitsLEAux b n (fuel + 1)
          = n % b :: natDigitsLEAux b (n / b) fuel := by
        simp [natDigitsLEAux, h0]
      rw [hstep, ih (n / b) (by omega),
        Nat.digits_def' (by omega : 1 < b) hpos]

theorem natDigitsLE_eq_digits (b n : Nat) (hb : 2 ≤ b) :
    natDigitsLE b n = Nat.digits b n :=
  natDigitsLEAux_eq_digits b hb n n (Nat.le_refl n)

theorem ofDigits_replicate_zero (b z : Nat) :
    Nat.ofDigits b (List.replicate z 0) = 0 := by
  induction z with
  | zero => simp [Nat.ofDigits]
  | succ z ih => simp [List.replicate_succ, Nat.ofDigits_cons, ih]

theorem ofDigits_append_replicate_zero (b z : Nat) (l : List Nat) :
    Nat.ofDigits b (l ++ List.replicate z 0) = Nat.ofDigits b l := by
  rw [Nat.ofDigits_append, ofDigits_replicate_zero]
  simp

theorem bytesToNat_replicate_zero_append (z : Nat) (l : List Byte) :
    bytesToNat (List.replicate z 0 ++ l) = bytesToNat l := by
  unfold bytesToNat
  rw [List.reverse_append, List.reverse_replicate,
    ofDigits_append_replicate_zero]

theorem bytesToNat_natToBytesBE (n : Nat) : bytesToNat (natToBytesBE n) = n := by
  unfold bytesToNat natToBytesBE
  rw [natDigitsLE_eq_digits 256 n (by omega), List.reverse_reverse,
    Nat.ofDigits_digits]

theorem natToBytesBE_lt (n : Nat) : ∀ x ∈ natToBytesBE n, x < 256 := by
  intro x hx
  unfold natToBytesBE at hx
  rw [natDigitsLE_eq_digits 256 n (by omega), List.mem_reverse] at hx
  exact Nat.digits_lt_base (by omega) hx

theorem natToB58BE_lt (n : Nat) : ∀ x ∈ natToB58BE n, x < 58 := by
  intro x hx
  unfold natToB58BE at hx
  rw [natDigitsLE_eq_digits 58 n (by omega), List.mem_reverse] at hx
  exact Nat.digits_lt_base (by omega) hx

theorem natToB58BE_headNZ (n : Nat) (hn : n ≠ 0) :
    ∀ a ∈ (natToB58BE n).head?, a ≠ 0 := by
  intro a ha
  unfold natToB58BE at ha
  rw [natDigitsLE_eq_digits 58 n (by omega), List.head?_reverse] at ha
  have hne : Nat.digits 58 n ≠ [] := Nat.digits_ne_nil_iff_ne_zero.mpr hn
  rw [List.getLast?_eq_getLast _ hne, Option.mem_def, Option.some_inj] at ha
  rw [← ha]
  exact Nat.getLast_digit_ne_zero 58 hn

theorem bytesToNat_cons_ne_zero (a : Byte) (t : List Byte) (ha : a ≠ 0) :
    bytesToNat (a :: t) ≠ 0 := by
  intro h
  unfold bytesToNat at h
  exact ha (Nat.digits_zero_of_eq_zero (by omega : (256 : ℕ) ≠ 0) h a
    (by rw [List.reverse_cons]; exact List.mem_append_right _ (by simp)))

theorem natToBytesBE_bytesToNat (l : List Byte) (hlt : ∀ x ∈ l, x < 256)
    (hnz : ∀ a ∈ l.head?, a ≠ 0) : natToBytesBE (bytesToNat l) = l := by
  cases l with
  | nil => rfl
  | cons a t =>
    have ha : a ≠ 0 := hnz a rfl
    unfold natToBytesBE bytesToNat
    rw [natDigitsLE_eq_digits 256 _ (by omega)]
    have hgl : ∀ h : (a :: t).reverse ≠ [],
        ((a :: t).reverse).getLast h ≠ 0 := by
      intro h
      have h1 : ((a :: t).reverse).getLast? = some a := by
        rw [List.getLast?_reverse]; rfl
      rw [List.getLast?_eq_getLast _ h, Option.some_inj] at h1
      rw [h1]; exact ha
    rw [Nat.digits_ofDigits 256 (by omega) ((a :: t).reverse)
      (fun x hx => hlt x (List.mem_reverse.mp hx)) hgl]
    exact List.reverse_reverse _

/-! ## Helper lemmas: leading zeros and the alphabet -/

theorem takeWhile_zero_eq_replicate (l : List Nat) :
    l.takeWhile (fun a => a == 0) = List.replicate (countLeading 0 l) 0 := by
  unfold countLeading
  rw [List.eq_replicate_length]
  intro b hb
  have h := List.mem_takeWhile_imp hb
  simpa using h

theorem dropWhile_zero_headNZ (l : List Nat) :
    ∀ a ∈ (l.dropWhile (fun a => a == 0)).head?, a ≠ 0 := by
  induction l with
  | nil => intro a ha; simp [List.dropWhile] at ha
  | cons b t ih =>
    intro a ha
    by_cases hb : b = 0
    · subst hb
      rw [List.dropWhile_cons_of_pos (by simp)] at ha
      exact ih a ha
    · rw [List.dropWhile_cons_of_neg (by simpa using hb)] at ha
      simp only [List.head?_cons, Option.mem_def, Option.some_inj] at ha
      rw [← ha]; exact hb

theorem split_leading_zeros (l : List Nat) :
    List.replicate (countLeading 0 l) 0 ++ l.dropWhile (fun a => a == 0) = l := by
  rw [← takeWhile_zero_eq_replicate]
  apply List.takeWhile_append_dropWhile

theorem countLeading_replicate_append (z : Nat) (t : List Nat)
    (ht : ∀ a ∈ t.head?, a ≠ 0) :
    countLeading 0 (List.replicate z 0 ++ t) = z := by
  induction z with
  | zero =>
    simp only [List.replicate, List.nil_append]
    unfold countLeading
    cases t with
    | nil => rfl
    | cons a t2 =>
      have ha : a ≠ 0 := ht a rfl
      rw [List.takeWhile_cons_of_neg (by simpa using ha)]
      rfl
  | succ z ih =>
    simp only [List.replicate_succ, List.cons_append]
    unfold countLeading at ih ⊢
    rw [List.takeWhile_cons_of_pos (by simp)]
    simp only [List.length_cons]
    rw [ih]

theorem b58Index_b58Char : ∀ d < 58, b58Index (b58Char d) = some d := by decide

theorem mapM_b58Index_map (ds : List Nat) (h : ∀ d ∈ ds, d < 58) :
    (ds.map b58Char).mapM b58Index = some ds := by
  induction ds with
  | nil => rfl
  | cons d t ih =>
    have hd : d < 58 := h d (by simp)
    have ht : ∀ x ∈ t, x < 58 := fun x hx => h x (by simp [hx])
    rw [List.map_cons, List.mapM_cons, b58Index_b58Char d hd, ih ht]
    rfl

theorem natToB58BE_headNZ' (n : Nat) : ∀ a ∈ (natToB58BE n).head?, a ≠ 0 := by
  by_cases hn : n = 0
  · subst hn; intro a ha; simp [natToB58BE, natDigitsLE, natDigitsLEAux] at ha
  · exact natToB58BE_headNZ n hn

theorem toList_mk (l : List Char) : (String.mk l).toList = l := rfl

/-! ## The base58 round trip -/

theorem base58_roundtrip (b : List Byte) (hb : ∀ x ∈ b, x < 256) :
    base58Decode (base58Encode b) = .ok b := by
  have hsplit := split_leading_zeros b
  have htnz : ∀ a ∈ (b.dropWhile (fun a => a == 0)).head?, a ≠ 0 :=
    dropWhile_zero_headNZ b
  have htlt : ∀ x ∈ b.dropWhile (fun a => a == 0), x < 256 := by
    intro x hx
    exact hb x (by rw [← hsplit]; exact List.mem_append_right _ hx)
  have hval : bytesToNat b = bytesToNat (b.dropWhile (fun a => a == 0)) := by
    conv_lhs => rw [← hsplit]
    exact bytesToNat_replicate_zero_append _ _
  have hdigits_lt : ∀ d ∈ List.replicate (countLeading 0 b) 0 ++
      natToB58BE (bytesToNat b), d < 58 := by
    intro d hd
    rcases List.mem_append.mp hd with h1 | h2
    · have := List.eq_of_mem_replicate h1
      omega
    · exact natToB58BE_lt _ d h2
  have hofd : Nat.ofDigits 58 ((List.replicate (countLeading 0 b) 0 ++
      natToB58BE (bytesToNat b)).reverse) = bytesToNat b := by
    rw [List.reverse_append, List.reverse_replicate]
    unfold natToB58BE
    rw [List.reverse_reverse, ofDigits_append_replicate_zero,
      natDigitsLE_eq_digits 58 _ (by omega), Nat.ofDigits_digits]
  unfold base58Encode base58Decode
  rw [toList_mk, mapM_b58Index_map _ hdigits_lt]
  have hbody : List.replicate (countLeading 0 (List.replicate (countLeading 0 b) 0
        ++ natToB58BE (bytesToNat b))) 0 ++
      natToBytesBE (Nat.ofDigits 58 ((List.replicate (countLeading 0 b) 0 ++
        natToB58BE (bytesToNat b)).reverse)) = b := by
    rw [countLeading_replicate_append _ _ (natToB58BE_headNZ' (bytesToNat b)),
      hofd, hval, natToBytesBE_bytesToNat _ htlt htnz, hsplit]
  exact congrArg Except.ok hbody

/-! ## Helper lemmas: scalar serialization -/

theorem natToBytesBE_length_le (n cap : Nat) (h : n < 256 ^ cap) :
    (natToBytesBE n).length ≤ cap := by
  unfold natToBytesBE
  rw [natDigitsLE_eq_digits 256 n (by omega), List.length_reverse]
  by_cases hn : n = 0
  · subst hn; simp
  · by_contra hlen
    push_neg at hlen
    have h1 : (256 : ℕ) ^ (Nat.digits 256 n).length ≤ 256 * n :=
      Nat.base_pow_length_digits_le 256 n (by omega) hn
    have h2 : (256 : ℕ) ^ (cap + 1) ≤ 256 ^ (Nat.digits 256 n).length :=
      Nat.pow_le_pow_right (by omega) (by omega)
    have h3 : (256 : ℕ) * n < 256 ^ (cap + 1) := by
      rw [pow_succ, mul_comm 256 n]
      exact mul_lt_mul_of_pos_right h (by omega)
    exact absurd (lt_of_le_of_lt h2 (h1.trans_lt h3)) (lt_irrefl _)

theorem serialize_length (k : PrivateKey) (h : k.D < 256 ^ 32) :
    k.Serialize.length = 32 := by
  unfold PrivateKey.Serialize paddedAppend PrivKeyBytesLen
  have := natToBytesBE_length_le k.D 32 h
  simp only [List.length_append, List.length_replicate]
  omega

theorem serialize_value (k : PrivateKey) : bytesToNat k.Serialize = k.D := by
  unfold PrivateKey.Serialize paddedAppend
  rw [bytesToNat_replicate_zero_append, bytesToNat_natToBytesBE]

theorem serialize_lt (k : PrivateKey) : ∀ x ∈ k.Serialize, x < 256 := by
  intro x hx
  unfold PrivateKey.Serialize paddedAppend at hx
  rcases List.mem_append.mp hx with h1 | h2
  · have hx0 : x = 0 := List.eq_of_mem_replicate h1
    rw [hx0]
    decide
  · exact natToBytesBE_lt _ x h2

/-! ## Helper lemmas: the append/shift/overwrite transform -/

theorem setHead_copyShift (p : List Byte) (h : Byte) :
    setHead (copyShift (p ++ [0x00])) h = h :: p := by
  cases p with
  | nil => rfl
  | cons a t =>
    have hcs : copyShift ((a :: t) ++ [0x00])
        = a :: ((a :: t) ++ [0x00]).take (((a :: t) ++ [0x00]).length - 1) := rfl
    have hlen : ((a :: t) ++ [0x00]).length - 1 = (a :: t).length := by simp
    rw [hcs, hlen, List.take_left]
    rfl

/-! ## Helper lemmas: FromWIF reduction -/

theorem headerLoopOK_cons (headers : List Byte) (b : Byte) (rest : List Byte) :
    headerLoopOK headers (b :: rest) = .ok (headers.any (fun h => b == h)) := by
  cases headers <;> rfl

theorem any_beq_iff_mem (b : Byte) (l : List Byte) :
    l.any (fun h => b == h) = true ↔ b ∈ l := by
  rw [List.any_eq_true]
  constructor
  · rintro ⟨x, hx, hbx⟩
    have : b = x := by simpa using hbx
    rw [this]; exact hx
  · intro h
    exact ⟨b, h, by simp⟩

theorem fromWIF_eq_decoded (wif : String) (param : Params) (pb0 : List Byte)
    (hdec : base58Decode wif = .ok pb0) :
    FromWIF wif param = fromWIFDecoded pb0 param := by
  unfold FromWIF
  rw [hdec]

theorem fromWIFDecoded_cons (b : Byte) (rest : List Byte) (param : Params)
    (hmem : param.DumpedPrivateKeyHeader.any (fun h => b == h) = true) :
    fromWIFDecoded (b :: rest) param =
      (if (b :: rest).length = PrivKeyBytesLen + 2 ∧
          (b :: rest).getD (PrivKeyBytesLen + 1) 0 = 0x01
       then .ok
         { D := bytesToNat (((b :: rest).take ((b :: rest).length - 1)).drop 1)
           PublicKey :=
             { point := scalarBaseMult
                 (bytesToNat (((b :: rest).take ((b :: rest).length - 1)).drop 1))
               isCompressed := true, param := param } }
       else .ok
         { D := bytesToNat rest
           PublicKey := { point := scalarBaseMult (bytesToNat rest)
                          isCompressed := false, param := param } }) := by
  unfold fromWIFDecoded
  rw [headerLoopOK_cons, hmem]
  by_cases hc : (b :: rest).length = PrivKeyBytesLen + 2 ∧
      (b :: rest).getD (PrivKeyBytesLen + 1) 0 = 0x01
  · rw [if_pos hc, if_pos hc]
    rfl
  · rw [if_neg hc, if_neg hc]
    rfl

theorem fromWIFDecoded_cons_not_mem (b : Byte) (rest : List Byte) (param : Params)
    (hmem : param.DumpedPrivateKeyHeader.any (fun h => b == h) = false) :
    fromWIFDecoded (b :: rest) param = .error .wifInvalid := by
  unfold fromWIFDecoded
  rw [headerLoopOK_cons, hmem]
  rfl

theorem take_len_drop_one (b : Byte) (rest : List Byte) :
    ((b :: rest).take ((b :: rest).length - 1)).drop 1 = rest.dropLast := by
  cases rest with
  | nil => rfl
  | cons r rs =>
    have h1 : (b :: r :: rs).length - 1 = rs.length + 1 := by simp
    rw [h1, List.take_succ_cons, List.drop_succ_cons, List.drop_zero,
      List.dropLast_eq_take]
    simp

theorem getD_append_singleton (l : List Byte) (x : Byte) (n : Nat)
    (h : l.length = n) : (l ++ [x]).getD n 0 = x := by
  subst h
  rw [List.getD_eq_getElem?_getD, List.getElem?_append_right (le_refl _)]
  simp

theorem WIFAddress_eq (k : PrivateKey) (h0 : Byte) (tl : List Byte)
    (hhdr : k.PublicKey.param.DumpedPrivateKeyHeader = h0 :: tl) :
    WIFAddress k = some (base58Encode (h0 ::
      (if k.PublicKey.isCompressed then k.Serialize ++ [0x01]
       else k.Serialize))) := by
  unfold WIFAddress
  rw [hhdr]
  show some (base58Encode (setHead (copyShift
    ((if k.PublicKey.isCompressed then k.Serialize ++ [0x01]
      else k.Serialize) ++ [0x00])) h0)) = _
  rw [setHead_copyShift]

/-! ## Claim theorems -/

/-- C2: for every header byte `h` and every non-empty payload `p`, the
checksummed encode step (append a `0x00` placeholder, right-shift by one,
overwrite position 0 with the header) produces exactly `h ++ p`, of length
`len(p) + 1`, as the input to base58 encoding — at all three encode sites
(WIF encoding, public-key address, redeem-script address). -/
theorem checksummed_encode_sites :
    (∀ (h : Byte) (p : List Byte), p ≠ [] →
      setHead (copyShift (p ++ [0x00])) h = h :: p
      ∧ (setHead (copyShift (p ++ [0x00])) h).length = p.length + 1)
    ∧ (∀ (k : PrivateKey) (h0 : Byte) (tl : List Byte),
        k.PublicKey.param.DumpedPrivateKeyHeader = h0 :: tl →
        WIFAddress k = some (base58Encode (h0 ::
          (if k.PublicKey.isCompressed then k.Serialize ++ [0x01]
           else k.Serialize))))
    ∧ (∀ (ripemd160 : List Byte → List Byte) (serC serU : Point → List Byte)
        (pub : PublicKey),
        PublicKey.Address ripemd160 serC serU pub
          = base58Encode (pub.param.AddressHeader ::
              PublicKey.AddressBytes ripemd160 serC serU pub))
    ∧ (∀ (ripemd160 : List Byte → List Byte) (redeem : List Byte) (hd : Byte),
        Address ripemd160 redeem hd
          = base58Encode (hd :: AddressBytes ripemd160 redeem)) := by
  refine ⟨?_, ?_, ?_, ?_⟩
  · intro h p hp
    refine ⟨setHead_copyShift p h, ?_⟩
    rw [setHead_copyShift]
    simp
  · intro k h0 tl hhdr
    exact WIFAddress_eq k h0 tl hhdr
  · intro r sC sU pub
    unfold PublicKey.Address
    show base58Encode (setHead (copyShift
      (PublicKey.AddressBytes r sC sU pub ++ [0x00])) pub.param.AddressHeader) = _
    rw [setHead_copyShift]
  · intro r redeem hd
    unfold Address
    show base58Encode (setHead (copyShift
      (AddressBytes r redeem ++ [0x00])) hd) = _
    rw [setHead_copyShift]

/-- Witness for C2: the transform at a concrete header and payload, and the
WIF site at a concrete key. -/
theorem checksummed_encode_sites_witness :
    setHead (copyShift ([0x05] ++ [0x00])) 0xaa = [0xaa, 0x05]
    ∧ WIFAddress exampleKey = some (base58Encode (0xaa ::
        (if exampleKey.PublicKey.isCompressed then exampleKey.Serialize ++ [0x01]
         else exampleKey.Serialize))) :=
  ⟨(checksummed_encode_sites.1 0xaa [0x05] (by decide)).1,
   checksummed_encode_sites.2.1 exampleKey 0xaa [] rfl⟩

/-- C3 (counterexample): the claim says `decodeAddress` fails with an
`InvalidAddress` error whenever the decoded length differs from 21 bytes;
but `"2"` decodes to the single byte `[0x01]` and `DecodeAddress` returns
`.ok []` with no error. -/
theorem decodeAddress_no_length_check_cex :
    base58Decode "2" = .ok [1] ∧ DecodeAddress "2" = .ok [] := ⟨rfl, rfl⟩

/-- C3 (amended): `DecodeAddress` performs no length validation: when the
base58 decoding is non-empty it strips the first byte and returns the rest
with no error, whatever the decoded length; when the decoding is empty the
`pb[1:]` slice panics.  It never returns an `InvalidAddress` error. -/
theorem decodeAddress_strips_first_byte (addr : String) (pb : List Byte)
    (hdec : base58Decode addr = .ok pb) :
    (pb = [] → DecodeAddress addr = .error .panic)
    ∧ (∀ (b : Byte) (rest : List Byte), pb = b :: rest →
        DecodeAddress addr = .ok rest) := by
  constructor
  · intro hpb
    subst hpb
    unfold DecodeAddress
    rw [hdec]
  · intro b rest hpb
    subst hpb
    unfold DecodeAddress
    rw [hdec]

/-- Witness for C3's amended theorem. -/
theorem decodeAddress_strips_first_byte_witness :
    DecodeAddress "" = .error .panic ∧ DecodeAddress "2" = .ok [] :=
  ⟨(decodeAddress_strips_first_byte "" [] rfl).1 rfl,
   (decodeAddress_strips_first_byte "2" [1] rfl).2 1 [] rfl⟩

/-- C5: address digests apply the 160-bit digest directly to the serialized
public key (resp. the redeem script) with no preceding 256-bit pass, and
the public-key path and the script path use the identical single-hash
pipeline (the conventional double-hash pipeline is observably different). -/
theorem address_single_hash_pipeline :
    (∀ (ripemd160 : List Byte → List Byte) (serC serU : Point → List Byte)
      (pub : PublicKey),
        PublicKey.AddressBytes ripemd160 serC serU pub
          = ripemd160 (PublicKey.Serialize serC serU pub)
        ∧ PublicKey.AddressBytes ripemd160 serC serU pub
          = AddressBytes ripemd160 (PublicKey.Serialize serC serU pub))
    ∧ (∀ (ripemd160 : List Byte → List Byte) (redeem : List Byte),
        AddressBytes ripemd160 redeem = ripemd160 redeem)
    ∧ (∃ (sha256 ripemd160 : List Byte → List Byte) (data : List Byte),
        AddressBytes ripemd160 data
          ≠ specConventionalHash160 sha256 ripemd160 data) :=
  ⟨fun _ _ _ _ => ⟨rfl, rfl⟩, fun _ _ => rfl,
   ⟨fun _ => [], id, [1], by decide⟩⟩

/-- C6 (counterexample): the claim says `NewPrivateKey` fails with
`InvalidScalar` on the zero scalar; but on 32 zero bytes it succeeds and
returns a key with scalar 0. -/
theorem newPrivateKey_zero_scalar_accepted :
    (NewPrivateKey (List.replicate 32 0) exampleParams).D = 0
    ∧ NewPrivateKey (List.replicate 32 0) exampleParams
      = { D := 0, PublicKey := { point := ⟨0⟩, isCompressed := true
                                 param := exampleParams } } := ⟨rfl, rfl⟩

/-- C6 (amended): `NewPrivateKey` performs no validation and cannot fail:
for every byte sequence (the zero scalar and values ≥ the curve order
included) it returns a key whose scalar is the big-endian value of the
bytes, with the public point derived from it. -/
theorem newPrivateKey_no_validation (pb : List Byte) (param : Params) :
    NewPrivateKey pb param =
      { D := bytesToNat pb
        PublicKey := { point := scalarBaseMult (bytesToNat pb)
                       isCompressed := true, param := param } } := rfl

/-- C7: for every WIF string with a non-empty base58 decoding, `FromWIF`
fails with the header error (`errors.New("wif is invalid")`, the spec's
`UnrecognizedHeader`) when the leading byte is not in
`DumpedPrivateKeyHeader`, and passes the header check (returning a key)
when it is. -/
theorem fromWIF_header_validation (wif : String) (param : Params) (b : Byte)
    (rest : List Byte) (hdec : base58Decode wif = .ok (b :: rest)) :
    (b ∉ param.DumpedPrivateKeyHeader → FromWIF wif param = .error .wifInvalid)
    ∧ (b ∈ param.DumpedPrivateKeyHeader → ∃ k, FromWIF wif param = .ok k) := by
  rw [fromWIF_eq_decoded wif param _ hdec]
  constructor
  · intro hnm
    cases hany : param.DumpedPrivateKeyHeader.any (fun h => b == h) with
    | false => exact fromWIFDecoded_cons_not_mem b rest param hany
    | true => exact absurd ((any_beq_iff_mem b _).mp hany) hnm
  · intro hm
    rw [fromWIFDecoded_cons b rest param ((any_beq_iff_mem b _).mpr hm)]
    by_cases hc : (b :: rest).length = PrivKeyBytesLen + 2 ∧
        (b :: rest).getD (PrivKeyBytesLen + 1) 0 = 0x01
    · rw [if_pos hc]; exact ⟨_, rfl⟩
    · rw [if_neg hc]; exact ⟨_, rfl⟩

/-- Witness for C7: a rejected header and an accepted header, concretely. -/
theorem fromWIF_header_validation_witness :
    FromWIF "2" exampleParamsB = .error .wifInvalid
    ∧ ∃ k, FromWIF "DwS" exampleParams = .ok k :=
  ⟨(fromWIF_header_validation "2" exampleParamsB 1 [] rfl).1 (by decide),
   (fromWIF_header_validation "DwS" exampleParams 0xaa [5] rfl).2 (by decide)⟩

/-- C9: `NewPrivateKeyFromPassword` uses the 256-bit digest of the UTF-8
bytes of the password directly as the private scalar, and two calls with
the same password yield identical keys and identical derived addresses. -/
theorem fromPassword_digest_determinism :
    (∀ (sha256 : List Byte → List Byte) (param : Params) (p : String),
        (NewPrivateKeyFromPassword sha256 p param).D
          = bytesToNat (sha256 (utf8Bytes p))
        ∧ (NewPrivateKeyFromPassword sha256 p param).PublicKey.point
          = scalarBaseMult (bytesToNat (sha256 (utf8Bytes p))))
    ∧ (∀ (sha256 ripemd160 : List Byte → List Byte)
        (serC serU : Point → List Byte) (param : Params) (p1 p2 : String),
        p1 = p2 →
        NewPrivateKeyFromPassword sha256 p1 param
          = NewPrivateKeyFromPassword sha256 p2 param
        ∧ PublicKey.Address ripemd160 serC serU
            (NewPrivateKeyFromPassword sha256 p1 param).PublicKey
          = PublicKey.Address ripemd160 serC serU
              (NewPrivateKeyFromPassword sha256 p2 param).PublicKey) := by
  refine ⟨fun _ _ _ => ⟨rfl, rfl⟩, ?_⟩
  intro s r sC sU param p1 p2 hp
  rw [hp]
  exact ⟨rfl, rfl⟩

/-- Witness for C9's determinism part at a concrete password. -/
theorem fromPassword_digest_determinism_witness :
    NewPrivateKeyFromPassword (fun l => l) "pw" exampleParams
      = NewPrivateKeyFromPassword (fun l => l) "pw" exampleParams :=
  (fromPassword_digest_determinism.2 (fun l => l) (fun l => l)
    (fun _ => []) (fun _ => []) exampleParams "pw" "pw" rfl).1

/-- C10: a WIF string whose base58 decoding is empty makes `FromWIF`
evaluate `pb[0]` in the header loop before any length validation, an
out-of-bounds access (Go panic) rather than a returned error. -/
theorem fromWIF_empty_decode_panics :
    base58Decode "" = .ok [] ∧ FromWIF "" exampleParams = .error .panic :=
  ⟨rfl, rfl⟩

/-- C4 (counterexample): the claim says `FromWIF` fails with `MalformedWIF`
for every decoded length other than 33 or 34 bytes; but `"DwS"` decodes to
the 2-byte sequence `[0xaa, 0x05]` with a recognized header, and `FromWIF`
succeeds. -/
theorem fromWIF_no_length_check_cex :
    base58Decode "DwS" = .ok [0xaa, 0x05]
    ∧ FromWIF "DwS" exampleParams = .ok exampleKeyDwS := ⟨rfl, rfl⟩

/-- C4 (amended): after a recognized header, `FromWIF` only tests whether
the decoded sequence is 34 bytes with a trailing `0x01` flag — in that case
the key is compressed and the flag byte is stripped; in every other case
(33 bytes, or any other length whatsoever) the key is uncompressed and the
remaining bytes after the header are the scalar.  No length is ever
rejected: there is no `MalformedWIF` error. -/
theorem fromWIF_compression_branch (wif : String) (param : Params) (b : Byte)
    (rest : List Byte) (hdec : base58Decode wif = .ok (b :: rest))
    (hmem : b ∈ param.DumpedPrivateKeyHeader) :
    ((b :: rest).length = PrivKeyBytesLen + 2 ∧
        (b :: rest).getD (PrivKeyBytesLen + 1) 0 = 0x01 →
      FromWIF wif param = .ok
        { D := bytesToNat rest.dropLast
          PublicKey := { point := scalarBaseMult (bytesToNat rest.dropLast)
                         isCompressed := true, param := param } })
    ∧ (¬((b :: rest).length = PrivKeyBytesLen + 2 ∧
        (b :: rest).getD (PrivKeyBytesLen + 1) 0 = 0x01) →
      FromWIF wif param = .ok
        { D := bytesToNat rest
          PublicKey := { point := scalarBaseMult (bytesToNat rest)
                         isCompressed := false, param := param } }) := by
  rw [fromWIF_eq_decoded wif param _ hdec,
    fromWIFDecoded_cons b rest param ((any_beq_iff_mem b _).mpr hmem)]
  constructor
  · intro hc
    rw [if_pos hc, take_len_drop_one]
  · intro hc
    rw [if_neg hc]

/-- Witness for C4's amended theorem: the no-flag branch at the 2-byte
decode of `"DwS"`. -/
theorem fromWIF_compression_branch_witness :
    FromWIF "DwS" exampleParams = .ok
      { D := bytesToNat [0x05]
        PublicKey := { point := scalarBaseMult (bytesToNat [0x05])
                       isCompressed := false, param := exampleParams } } :=
  (fromWIF_compression_branch "DwS" exampleParams 0xaa [0x05] rfl
    (by decide)).2 (by decide)

/-- C8: every construction path (`NewPrivateKey`, password derivation,
random generation, WIF import) returns a key satisfying
`publicKey.point == scalar * curve.generator` (in the discrete-log model:
the point is `scalarBaseMult` of the stored scalar); no exposed operation
mutates a key afterwards in this pure model. -/
theorem publicKey_point_invariant :
    (∀ (pb : List Byte) (param : Params),
        (NewPrivateKey pb param).PublicKey.point
          = scalarBaseMult (NewPrivateKey pb param).D)
    ∧ (∀ (sha256 : List Byte → List Byte) (pw : String) (param : Params),
        (NewPrivateKeyFromPassword sha256 pw param).PublicKey.point
          = scalarBaseMult (NewPrivateKeyFromPassword sha256 pw param).D)
    ∧ (∀ (r : Nat) (param : Params),
        (Generate r param).PublicKey.point
          = scalarBaseMult (Generate r param).D)
    ∧ (∀ (wif : String) (param : Params) (k : PrivateKey),
        FromWIF wif param = .ok k →
        k.PublicKey.point = scalarBaseMult k.D) := by
  refine ⟨fun _ _ => rfl, fun _ _ _ => rfl, fun _ _ => rfl, ?_⟩
  intro wif param k h
  cases hdec : base58Decode wif with
  | error e =>
    rw [show FromWIF wif param = .error e by unfold FromWIF; rw [hdec]] at h
    exact Except.noConfusion h
  | ok pb0 =>
    rw [fromWIF_eq_decoded wif param pb0 hdec] at h
    unfold fromWIFDecoded at h
    cases hOK : headerLoopOK param.DumpedPrivateKeyHeader pb0 with
    | error e =>
      rw [hOK] at h
      exact Except.noConfusion h
    | ok ok =>
      rw [hOK] at h
      cases ok with
      | false => exact Except.noConfusion h
      | true =>
        have hk := Except.ok.inj h
        rw [← hk]
        rfl

/-- Witness for C8's WIF-import part at a concrete import. -/
theorem publicKey_point_invariant_witness :
    FromWIF "DwS" exampleParams = .ok exampleKeyDwS
    ∧ exampleKeyDwS.PublicKey.point = scalarBaseMult exampleKeyDwS.D :=
  ⟨rfl, publicKey_point_invariant.2.2.2 "DwS" exampleParams exampleKeyDwS rfl⟩

/-- C1: for every valid private key (scalar in the curve's valid range)
whose parameter value has a non-empty `DumpedPrivateKeyHeader` list (so it
contains the header byte the encoder uses, namely element 0, a byte),
decoding the WIF string produced by `WIFAddress` recovers the same scalar
and the same `isCompressed` flag, in both the compressed and the
uncompressed case. -/
theorem fromWIF_WIFAddress_roundtrip (k : PrivateKey) (h0 : Byte)
    (tl : List Byte)
    (hhdr : k.PublicKey.param.DumpedPrivateKeyHeader = h0 :: tl)
    (hh0 : h0 < 256) (_hD0 : 0 < k.D) (hDN : k.D < secpN) :
    ∃ s k2, WIFAddress k = some s
      ∧ FromWIF s k.PublicKey.param = .ok k2
      ∧ k2.D = k.D
      ∧ k2.PublicKey.isCompressed = k.PublicKey.isCompressed := by
  have hser_len : k.Serialize.length = 32 :=
    serialize_length k (hDN.trans (by norm_num [secpN]))
  have hmem : k.PublicKey.param.DumpedPrivateKeyHeader.any
      (fun h => h0 == h) = true := by
    apply (any_beq_iff_mem h0 _).mpr
    rw [hhdr]
    exact List.mem_cons_self _ _
  by_cases hcomp : k.PublicKey.isCompressed
  · have hWA : WIFAddress k
        = some (base58Encode (h0 :: (k.Serialize ++ [0x01]))) := by
      rw [WIFAddress_eq k h0 tl hhdr, if_pos hcomp]
    have hlt : ∀ x ∈ h0 :: (k.Serialize ++ [0x01]), x < 256 := by
      intro x hx
      rcases List.mem_cons.mp hx with hx1 | hx2
      · rw [hx1]; exact hh0
      rcases List.mem_append.mp hx2 with h3 | h4
      · exact serialize_lt k x h3
      · have hx1 : x = 1 := by simpa using h4
        rw [hx1]; decide
    have hdec := base58_roundtrip _ hlt
    have hlen : (h0 :: (k.Serialize ++ [0x01])).length
        = PrivKeyBytesLen + 2 := by
      simp [hser_len, PrivKeyBytesLen]
    have hgetD : (h0 :: (k.Serialize ++ [0x01])).getD (PrivKeyBytesLen + 1) 0
        = 0x01 := by
      rw [← List.cons_append]
      apply getD_append_singleton
      simp [hser_len, PrivKeyBytesLen]
    have hFW := fromWIF_eq_decoded
      (base58Encode (h0 :: (k.Serialize ++ [0x01]))) k.PublicKey.param _ hdec
    rw [fromWIFDecoded_cons h0 (k.Serialize ++ [0x01]) k.PublicKey.param hmem,
      if_pos ⟨hlen, hgetD⟩, take_len_drop_one] at hFW
    have hdl : (k.Serialize ++ [0x01]).dropLast = k.Serialize := by simp
    rw [hdl] at hFW
    exact ⟨_, _, hWA, hFW, serialize_value k, hcomp.symm⟩
  · have hWA : WIFAddress k = some (base58Encode (h0 :: k.Serialize)) := by
      rw [WIFAddress_eq k h0 tl hhdr, if_neg hcomp]
    have hlt : ∀ x ∈ h0 :: k.Serialize, x < 256 := by
      intro x hx
      rcases List.mem_cons.mp hx with hx1 | hx2
      · rw [hx1]; exact hh0
      · exact serialize_lt k x hx2
    have hdec := base58_roundtrip _ hlt
    have hnc : ¬((h0 :: k.Serialize).length = PrivKeyBytesLen + 2 ∧
        (h0 :: k.Serialize).getD (PrivKeyBytesLen + 1) 0 = 0x01) := by
      intro hc
      have h1 := hc.1
      simp [hser_len, PrivKeyBytesLen] at h1
    have hFW := fromWIF_eq_decoded
      (base58Encode (h0 :: k.Serialize)) k.PublicKey.param _ hdec
    rw [fromWIFDecoded_cons h0 k.Serialize k.PublicKey.param hmem,
      if_neg hnc] at hFW
    have hcF : k.PublicKey.isCompressed = false := by
      cases hb : k.PublicKey.isCompressed with
      | false => rfl
      | true => exact absurd hb hcomp
    exact ⟨_, _, hWA, hFW, serialize_value k, hcF.symm⟩

/-- Witness for C1 at a concrete compressed key and a concrete uncompressed
key (scalar 1, header byte `0xaa`). -/
theorem fromWIF_WIFAddress_roundtrip_witness :
    (∃ s k2, WIFAddress exampleKey = some s
      ∧ FromWIF s exampleKey.PublicKey.param = .ok k2
      ∧ k2.D = exampleKey.D
      ∧ k2.PublicKey.isCompressed = exampleKey.PublicKey.isCompressed)
    ∧ (∃ s k2, WIFAddress exampleKeyU = some s
      ∧ FromWIF s exampleKeyU.PublicKey.param = .ok k2
      ∧ k2.D = exampleKeyU.D
      ∧ k2.PublicKey.isCompressed = exampleKeyU.PublicKey.isCompressed) :=
  ⟨fromWIF_WIFAddress_roundtrip exampleKey 0xaa [] rfl (by decide) (by decide)
      (by decide),
   fromWIF_WIFAddress_roundtrip exampleKeyU 0xaa [] rfl (by decide) (by decide)
      (by decide)⟩

end ArkGo
